import Mathlib

/-!
Shallow embedding of the std-build repository (a small build-orchestration
utility around an external bundler), together with theorems settling the
frozen claims about its specification.

Modelling conventions:
* JavaScript values reachable from a parsed `package.json` object are
  modelled by the inductive type `JVal`; a JavaScript object is its list of
  own enumerable string-keyed entries in insertion order (JavaScript objects
  cannot hold duplicate keys, and the exotic reordering of integer-like keys
  is not modelled: none of the claims below observes entry order of a raw
  object, only membership and the explicitly sorted outputs).
* JavaScript strings are modelled as sequences of Unicode scalar values
  (Lean `String`); `String(x)` coercion is `jsString`.
* `Array.prototype.sort(cmp)` (stable since ES2019) is modelled as a stable
  insertion sort by the boolean relation `cmp a b <= 0`, passed in as an
  explicit comparator parameter `le`.  The comparator the source uses,
  `a.localeCompare(b)`, depends on the host ICU collation tables, so it is
  kept abstract: theorems that need sortedness assume the comparator is
  total and transitive (the "consistent comparator" contract of `sort`),
  and witnesses instantiate it with the concrete code-point comparator
  `strLeB`.
* `glob-to-regexp` (v0.4.1, default options: `extended:false`,
  `globstar:false`, no flags) translates a glob to an anchored regex where
  every run of `*` becomes `.*` and every other character matches itself
  literally (the library escapes all regex metacharacters it recognises;
  the sole unescaped metacharacter, backslash, is modelled as a literal,
  and the one theorem about glob semantics carries a no-backslash
  hypothesis).  `.` in a JavaScript regex without the `s` flag matches any
  character except the four line terminators.
* `node:path.parse` is modelled by `posixParse`, a functional presentation
  of the POSIX `parse` algorithm from Node's `lib/path.js`.
-/

namespace StdBuild

/-! ## JavaScript value model -/

/-- A JSON-reachable JavaScript value.  Numbers are restricted to the
integral values the claims mention (IEEE-754 specifics are irrelevant to
every claim).  Absence of an object field is represented by a missing key,
standing for `undefined`. -/
inductive JVal where
  | jnull : JVal
  | jbool : Bool → JVal
  | jnum : Int → JVal
  | jstr : String → JVal
  | jarr : List JVal → JVal
  | jobj : List (String × JVal) → JVal

/-- A parsed `package.json` document: the own enumerable entries of the raw
object, in insertion order. -/
abbrev JObj := List (String × JVal)

/-- Property lookup `obj[key]`: `none` models `undefined`. -/
def jlookup (j : JObj) (k : String) : Option JVal :=
  List.lookup k j

/-- The predicate of `@std-types/is-object`, modelled as
`typeof value === "object" && value !== null` (arrays and plain objects
pass, primitives and `null` do not). -/
def isObjectJS : JVal → Bool
  | .jobj _ => true
  | .jarr _ => true
  | _ => false

/-- Model of `Object.entries(v)`: own enumerable string-keyed entries.  Strings and
arrays expose their index properties; numbers and booleans have none.
(`null`/`undefined` never reach `Object.entries` in the modelled code:
every call site guards them away.) -/
def jsEntries : JVal → List (String × JVal)
  | .jobj fs => fs
  | .jarr xs => xs.enum.map (fun p => (toString p.1, p.2))
  | .jstr s => s.data.enum.map (fun p => (toString p.1, JVal.jstr (String.mk [p.2])))
  | _ => []

/-- Model of `Object.keys(v)`. -/
def jsKeys (v : JVal) : List String :=
  (jsEntries v).map Prod.fst

mutual

/-- The JavaScript `String(x)` coercion, for JSON-reachable values. -/
def jsString : JVal → String
  | .jnull => "null"
  | .jbool true => "true"
  | .jbool false => "false"
  | .jnum n => toString n
  | .jstr s => s
  | .jobj _ => "[object Object]"
  | .jarr xs => jsStringArr xs

/-- Model of `Array.prototype.join(",")` as used by `String(array)`: `null` and
`undefined` elements print as empty strings. -/
def jsStringArr : List JVal → String
  | [] => ""
  | [x] => jsStringElem x
  | x :: y :: xs => jsStringElem x ++ "," ++ jsStringArr (y :: xs)

/-- One element of an array under `join`. -/
def jsStringElem : JVal → String
  | .jnull => ""
  | .jbool b => jsString (.jbool b)
  | .jnum n => jsString (.jnum n)
  | .jstr s => jsString (.jstr s)
  | .jobj fs => jsString (.jobj fs)
  | .jarr xs => jsStringArr xs

end

/-! ## Glob matching (`glob-to-regexp` with default options, then
`RegExp.prototype.test`) -/

/-- Whether a JavaScript regex `.` (no `s` flag) matches the character:
anything but the four line terminators. -/
def jsDotMatch (c : Char) : Bool :=
  !(c = '\n' || c = '\r' || c = '\u2028' || c = '\u2029')

/-- One token of the regex produced by `glob-to-regexp` under default
options: a literal character, or `.*` (from a run of `*`). -/
inductive GTok where
  | lit : Char → GTok
  | star : GTok
deriving DecidableEq, Repr

mutual

/-- Tokenise a glob as `glob-to-regexp` (default options) does: each
maximal run of `*` becomes one `.*`, every other character is a literal. -/
def globToTokens : List Char → List GTok
  | [] => []
  | c :: cs =>
    if c = '*' then GTok.star :: globSkipStars cs
    else GTok.lit c :: globToTokens cs

/-- Skip the remainder of a `*` run. -/
def globSkipStars : List Char → List GTok
  | [] => []
  | c :: cs =>
    if c = '*' then globSkipStars cs
    else GTok.lit c :: globToTokens cs

end

/-- The suffixes of `s` reachable by deleting a (possibly empty) prefix run
of characters that `.` matches: the candidate remainders after a `.*`. -/
def starSuffixes : List Char → List (List Char)
  | [] => [[]]
  | c :: cs =>
    (c :: cs) :: (if jsDotMatch c then starSuffixes cs else [])

/-- Anchored matching of the token list against the whole string, i.e.
`new RegExp("^" + body + "$").test(s)`. -/
def gmatch : List GTok → List Char → Bool
  | [], s => s.isEmpty
  | .lit c :: ts, s =>
    match s with
    | [] => false
    | d :: ds => c = d && gmatch ts ds
  | .star :: ts, s => (starSuffixes s).any (fun s' => gmatch ts s')

/-- Model of `globToRegExp(pattern).test(name)` for one pattern. -/
def globTest (pattern : String) (name : String) : Bool :=
  gmatch (globToTokens pattern.data) name.data

/-- Model of `PackageJson.#isExternalDependency`: the name matches at least one of
the configured externals globs (`this.#externals.some((p) => p.test(d))`,
where `#externals = (externals ?? []).map(globToRegExp)`). -/
def isExternalDependency (externals : List String) (name : String) : Bool :=
  externals.any (fun pattern => globTest pattern name)

/-- Declarative matching semantics: a token list matches a character list
when literals match one character each and each `.*` spans an arbitrary
run of characters that `.` matches. -/
inductive GMatches : List GTok → List Char → Prop where
  | nil : GMatches [] []
  | lit (c : Char) (ts : List GTok) (s : List Char) :
      GMatches ts s → GMatches (.lit c :: ts) (c :: s)
  | star (run : List Char) (ts : List GTok) (s : List Char) :
      (∀ c ∈ run, jsDotMatch c = true) → GMatches ts s →
      GMatches (.star :: ts) (run ++ s)

theorem mem_starSuffixes_iff (s s' : List Char) :
    s' ∈ starSuffixes s ↔
      ∃ run, (∀ c ∈ run, jsDotMatch c = true) ∧ s = run ++ s' := by
  induction s with
  | nil =>
    simp only [starSuffixes, List.mem_singleton]
    constructor
    · rintro rfl; exact ⟨[], by simp, rfl⟩
    · rintro ⟨run, _, h⟩
      rcases List.append_eq_nil.mp h.symm with ⟨_, rfl⟩
      rfl
  | cons c cs ih =>
    simp only [starSuffixes, List.mem_cons]
    constructor
    · rintro (rfl | hmem)
      · exact ⟨[], by simp, rfl⟩
      · by_cases hdm : jsDotMatch c = true
        · simp only [hdm, if_true] at hmem
          obtain ⟨run, hrun, rfl⟩ := ih.mp hmem
          exact ⟨c :: run, by simpa [hdm] using hrun, rfl⟩
        · simp only [Bool.not_eq_true] at hdm
          simp [hdm] at hmem
    · rintro ⟨run, hrun, heq⟩
      match run, heq with
      | [], heq => simp at heq; exact Or.inl heq.symm
      | r :: rs, heq =>
        have hc : c = r := by
          have := congrArg (List.head?) heq
          simpa using this
        subst hc
        have hdm : jsDotMatch c = true := hrun c (by simp)
        have htail : cs = rs ++ s' := by
          have := congrArg (List.tail) heq
          simpa using this
        right
        simp only [hdm, if_true]
        exact ih.mpr ⟨rs, fun d hd => hrun d (by simp [hd]), htail⟩

theorem gmatch_iff_GMatches (ts : List GTok) (s : List Char) :
    gmatch ts s = true ↔ GMatches ts s := by
  induction ts generalizing s with
  | nil =>
    simp only [gmatch, List.isEmpty_iff]
    constructor
    · rintro rfl; exact GMatches.nil
    · rintro h; cases h; rfl
  | cons t ts ih =>
    cases t with
    | lit c =>
      cases s with
      | nil =>
        simp only [gmatch]
        constructor
        · intro h; cases h
        · intro h; cases h
      | cons d ds =>
        simp only [gmatch, Bool.and_eq_true, decide_eq_true_eq]
        constructor
        · rintro ⟨h1, h2⟩
          subst h1
          exact GMatches.lit _ _ _ ((ih ds).mp h2)
        · intro h
          cases h with
          | lit _ _ _ h => exact ⟨rfl, (ih ds).mpr h⟩
    | star =>
      simp only [gmatch, List.any_eq_true]
      constructor
      · rintro ⟨s', hmem, hm⟩
        obtain ⟨run, hrun, rfl⟩ := (mem_starSuffixes_iff s s').mp hmem
        exact GMatches.star run ts s' hrun ((ih s').mp hm)
      · intro h
        cases h with
        | star run _ s' hrun hm =>
          exact ⟨s', (mem_starSuffixes_iff _ s').mpr ⟨run, hrun, rfl⟩,
            (ih s').mpr hm⟩

/-! ## A concrete consistent comparator (for witnesses)

`Array.prototype.sort` is called with `(a, b) => a.localeCompare(b)`.  The
ICU collation behind `localeCompare` is host-dependent, so the model takes
the induced boolean relation `le a b` (meaning `cmp(a,b) <= 0`) as a
parameter; `strLeB`, code-point lexicographic order, is one concrete
consistent comparator used to instantiate witnesses. -/

/-- Lexicographic order on character lists by code point. -/
def lexLeB : List Char → List Char → Bool
  | [], _ => true
  | _ :: _, [] => false
  | a :: as, b :: bs => if a = b then lexLeB as bs else decide (a < b)

/-- Code-point lexicographic comparison of strings. -/
def strLeB (a b : String) : Bool :=
  lexLeB a.data b.data

theorem lexLeB_total (a b : List Char) : lexLeB a b = true ∨ lexLeB b a = true := by
  induction a generalizing b with
  | nil => left; rfl
  | cons x xs ih =>
    cases b with
    | nil => right; rfl
    | cons y ys =>
      by_cases hxy : x = y
      · subst hxy
        simpa [lexLeB] using ih ys
      · rcases lt_or_gt_of_ne hxy with h | h
        · left; simp [lexLeB, hxy, h]
        · right; simp [lexLeB, Ne.symm hxy, h]

theorem lexLeB_trans (a b c : List Char) (hab : lexLeB a b = true)
    (hbc : lexLeB b c = true) : lexLeB a c = true := by
  induction a generalizing b c with
  | nil => rfl
  | cons x xs ih =>
    cases b with
    | nil => simp [lexLeB] at hab
    | cons y ys =>
      cases c with
      | nil => simp [lexLeB] at hbc
      | cons z zs =>
        simp only [lexLeB] at hab hbc ⊢
        by_cases hxy : x = y
        · subst hxy
          rw [if_pos rfl] at hab
          by_cases hxz : x = z
          · subst hxz
            rw [if_pos rfl] at hbc ⊢
            exact ih ys zs hab hbc
          · rw [if_neg hxz] at hbc ⊢
            exact hbc
        · rw [if_neg hxy, decide_eq_true_eq] at hab
          by_cases hyz : y = z
          · subst hyz
            rw [if_neg hxy, decide_eq_true_eq]
            exact hab
          · rw [if_neg hyz, decide_eq_true_eq] at hbc
            have hxz : x < z := lt_trans hab hbc
            rw [if_neg (ne_of_lt hxz), decide_eq_true_eq]
            exact hxz

theorem strLeB_total (a b : String) : strLeB a b = true ∨ strLeB b a = true :=
  lexLeB_total a.data b.data

theorem strLeB_trans (a b c : String) (hab : strLeB a b = true)
    (hbc : strLeB b c = true) : strLeB a c = true :=
  lexLeB_trans a.data b.data c.data hab hbc

/-! ## Sorting and deduplication as the source uses them -/

/-- Model of `array.sort((a, b) => a.localeCompare(b))` on a string list, for the
comparator-induced relation `le`: a stable sort. -/
def jsSortStrs (le : String → String → Bool) (l : List String) : List String :=
  List.insertionSort (fun a b => le a b = true) l

/-- Model of `entries.sort(([a], [b]) => a.localeCompare(b))` on key/value pairs. -/
def jsSortPairs (le : String → String → Bool) (l : List (String × String)) :
    List (String × String) :=
  List.insertionSort (fun p q => le p.1 q.1 = true) l

/-- Helper for `jsSetDedup`: keep elements not yet seen, in order. -/
def dedupFirst (seen : List String) : List String → List String
  | [] => []
  | x :: xs =>
    if x ∈ seen then dedupFirst seen xs
    else x :: dedupFirst (x :: seen) xs

/-- Model of `Array.from(new Set(l))`: deduplicate keeping first occurrences, in
insertion order. -/
def jsSetDedup (l : List String) : List String :=
  dedupFirst [] l

theorem mem_dedupFirst (seen l : List String) (x : String) :
    x ∈ dedupFirst seen l ↔ x ∈ l ∧ x ∉ seen := by
  induction l generalizing seen with
  | nil => simp [dedupFirst]
  | cons y ys ih =>
    simp only [dedupFirst]
    by_cases hy : y ∈ seen
    · rw [if_pos hy, ih]
      constructor
      · rintro ⟨h1, h2⟩
        exact ⟨List.mem_cons_of_mem _ h1, h2⟩
      · rintro ⟨h1, h2⟩
        rcases List.mem_cons.mp h1 with rfl | h1
        · exact absurd hy h2
        · exact ⟨h1, h2⟩
    · rw [if_neg hy]
      constructor
      · intro h
        rcases List.mem_cons.mp h with rfl | h
        · exact ⟨List.mem_cons_self _ _, hy⟩
        · obtain ⟨h1, h2⟩ := (ih _).mp h
          exact ⟨List.mem_cons_of_mem _ h1,
            fun hc => h2 (List.mem_cons_of_mem _ hc)⟩
      · rintro ⟨h1, h2⟩
        rcases List.mem_cons.mp h1 with rfl | h1
        · exact List.mem_cons_self _ _
        · by_cases hxy : x = y
          · subst hxy; exact List.mem_cons_self _ _
          · refine List.mem_cons_of_mem _ ((ih _).mpr ⟨h1, fun hc => ?_⟩)
            rcases List.mem_cons.mp hc with h | h
            · exact hxy h
            · exact h2 h

theorem mem_jsSetDedup (l : List String) (x : String) :
    x ∈ jsSetDedup l ↔ x ∈ l := by
  simpa [jsSetDedup] using mem_dedupFirst [] l x

theorem nodup_dedupFirst (seen l : List String) :
    (dedupFirst seen l).Nodup := by
  induction l generalizing seen with
  | nil => exact List.nodup_nil
  | cons y ys ih =>
    simp only [dedupFirst]
    by_cases hy : y ∈ seen
    · rw [if_pos hy]; exact ih seen
    · rw [if_neg hy]
      refine List.nodup_cons.mpr ⟨fun hc => ?_, ih (y :: seen)⟩
      exact ((mem_dedupFirst _ _ _).mp hc).2 (List.mem_cons_self _ _)

theorem nodup_jsSetDedup (l : List String) : (jsSetDedup l).Nodup :=
  nodup_dedupFirst [] l

/-! ## `node:path.parse` (POSIX) -/

/-- The record returned by `path.parse`. -/
structure ParsedPath where
  root : String
  dir : String
  base : String
  ext : String
  name : String

/-- Split a character list around the last occurrence of `x`: the first
component is everything up to and including the last `x` (empty when `x`
does not occur), the second is everything after it. -/
def splitAtLast (x : Char) : List Char → List Char × List Char
  | [] => ([], [])
  | c :: cs =>
    if x ∈ cs then
      ((c :: (splitAtLast x cs).1), (splitAtLast x cs).2)
    else if c = x then ([c], cs)
    else ([], c :: cs)

theorem splitAtLast_append (x : Char) (l : List Char) :
    (splitAtLast x l).1 ++ (splitAtLast x l).2 = l := by
  induction l with
  | nil => rfl
  | cons c cs ih =>
    by_cases hm : x ∈ cs
    · simp [splitAtLast, hm, ih]
    · by_cases hc : c = x
      · simp [splitAtLast, hm, hc]
      · simp [splitAtLast, hm, hc]

theorem splitAtLast_snd_not_mem (x : Char) (l : List Char) :
    x ∉ (splitAtLast x l).2 := by
  induction l with
  | nil => simp [splitAtLast]
  | cons c cs ih =>
    by_cases hm : x ∈ cs
    · simpa [splitAtLast, hm] using ih
    · by_cases hc : c = x
      · simp [splitAtLast, hm, hc]
      · simp only [splitAtLast, if_neg hm, if_neg hc]
        intro hmem
        rcases List.mem_cons.mp hmem with h | h
        · exact hc h.symm
        · exact hm h

theorem splitAtLast_fst_eq_nil_iff (x : Char) (l : List Char) :
    (splitAtLast x l).1 = [] ↔ x ∉ l := by
  induction l with
  | nil => simp [splitAtLast]
  | cons c cs ih =>
    by_cases hm : x ∈ cs
    · simp [splitAtLast, hm]
    · by_cases hc : c = x
      · simp [splitAtLast, hm, hc]
      · have hcx : ¬(x = c) := fun h => hc h.symm
        simp [splitAtLast, hm, hc, hcx]

theorem splitAtLast_fst_ends (x : Char) (l : List Char)
    (h : (splitAtLast x l).1 ≠ []) :
    (splitAtLast x l).1 = (splitAtLast x l).1.dropLast ++ [x] := by
  induction l with
  | nil => exact absurd rfl h
  | cons c cs ih =>
    by_cases hm : x ∈ cs
    · have hne : (splitAtLast x cs).1 ≠ [] := by
        rw [Ne, splitAtLast_fst_eq_nil_iff]
        simpa using hm
      have hrec := ih hne
      simp only [splitAtLast, if_pos hm]
      rw [List.dropLast_cons_of_ne_nil hne, List.cons_append, ← hrec]
    · by_cases hc : c = x
      · simp [splitAtLast, hm, hc]
      · exact absurd (by simp [splitAtLast, hm, hc]) h

/-- Remove the trailing run of `/` characters (the `matchedSlash` skipping
loop in Node's `parse`). -/
def trimTrailingSlashes (l : List Char) : List Char :=
  (l.reverse.dropWhile (fun c => c = '/')).reverse

theorem trimTrailingSlashes_of_getLast_ne (l : List Char) (hne : l ≠ [])
    (h : l.getLast? ≠ some '/') : trimTrailingSlashes l = l := by
  unfold trimTrailingSlashes
  have hrev : l.reverse ≠ [] := fun hc => hne (by simpa using congrArg List.reverse hc)
  obtain ⟨c, cs, hcons⟩ := List.exists_cons_of_ne_nil hrev
  have hhead : l.reverse.head? = some c := by rw [hcons]; rfl
  rw [List.head?_reverse] at hhead
  have hc : ¬(c = '/') := fun hcEq => h (by rw [hhead, hcEq])
  rw [hcons, List.dropWhile_cons, if_neg (by simpa using hc), ← hcons,
    List.reverse_reverse]

/-- The core of `path.parse` on the character list after the root: given
whether the path is absolute and the characters after the leading slash
(if any), return `(dir, base, ext, name)` as character lists.  This is
the functional presentation of the parse loop: trim trailing slashes,
split off the last component, then split the component at its last dot,
with the `.foo`, `..` and dotless special cases of the `preDotState`
machine. -/
def parseCore (isAbs : Bool) (u : List Char) :
    List Char × List Char × List Char × List Char :=
  let root : List Char := if isAbs then ['/'] else []
  let u' := trimTrailingSlashes u
  if u' = [] then (root, [], [], [])
  else
    let pb := splitAtLast '/' u'
    let dir := if pb.1 = [] then root else root ++ pb.1.dropLast
    let ne := splitAtLast '.' pb.2
    if ne.1 = [] ∨ ne.1 = ['.'] ∨ pb.2 = ['.', '.'] then
      (dir, pb.2, [], pb.2)
    else
      (dir, pb.2, '.' :: ne.2, ne.1.dropLast)

/-- Model of `path.parse` for POSIX paths, as implemented in Node's `lib/path.js`. -/
def posixParse (s : String) : ParsedPath :=
  match s.data with
  | [] => ⟨"", "", "", "", ""⟩
  | c0 :: rest =>
    let isAbs := c0 == '/'
    let r := parseCore isAbs (if isAbs then rest else c0 :: rest)
    ⟨if isAbs then "/" else "", String.mk r.1, String.mk r.2.1,
      String.mk r.2.2.1, String.mk r.2.2.2⟩

/-! ## `PackageJson` (src/package-json.ts), derived attributes

Each getter is a pure function of the raw object `j`, the configured
externals glob list, and (where the source sorts with `localeCompare`) the
comparator relation `le`. -/

/-- Getter `get name()`: `String(this.#json.name ?? "")`. -/
def pjName (j : JObj) : String :=
  jsString (match jlookup j "name" with
    | none => JVal.jstr ""
    | some .jnull => JVal.jstr ""
    | some v => v)

/-- Getter `get description()`: `String(this.#json.description ?? "")`. -/
def pjDescription (j : JObj) : String :=
  jsString (match jlookup j "description" with
    | none => JVal.jstr ""
    | some .jnull => JVal.jstr ""
    | some v => v)

/-- Getter `get version()`: the raw `version` if it is a string, else `"0.0.0"`. -/
def pjVersion (j : JObj) : String :=
  match jlookup j "version" with
  | some (.jstr s) => s
  | _ => "0.0.0"

/-- Getter `get entryPoint()`: the raw `main` if it is a non-empty string, else
`"src/index.ts"`. -/
def pjEntryPoint (j : JObj) : String :=
  match jlookup j "main" with
  | some (.jstr s) => if s.length = 0 then "src/index.ts" else s
  | _ => "src/index.ts"

/-- Getter `get module()`: the template literal
`` `${parsedEntrypoint.dir}/${parsedEntrypoint.name}.mjs` ``. -/
def pjModule (j : JObj) : String :=
  let p := posixParse (pjEntryPoint j)
  p.dir ++ "/" ++ p.name ++ ".mjs"

/-- Getter `get main()` (the compiled-output name): `.cjs` variant of the same
template literal. -/
def pjMainOut (j : JObj) : String :=
  let p := posixParse (pjEntryPoint j)
  p.dir ++ "/" ++ p.name ++ ".cjs"

/-- Getter `get types()`: `.d.ts` variant of the same template literal. -/
def pjTypes (j : JObj) : String :=
  let p := posixParse (pjEntryPoint j)
  p.dir ++ "/" ++ p.name ++ ".d.ts"

/-- The `tuple.every(isString)` filter on one `Object.entries` tuple
(keys are always strings): keep the entry when its value is a string. -/
def depEntryString (kv : String × JVal) : Option (String × String) :=
  match kv.2 with
  | .jstr s => some (kv.1, s)
  | _ => none

/-- Getter `get dependencies()`: entries of the raw `dependencies` (empty unless
it is an object), keeping string-valued entries whose key matches an
externals glob, sorted by key with the comparator. -/
def pjDependencies (j : JObj) (externals : List String)
    (le : String → String → Bool) : List (String × String) :=
  match jlookup j "dependencies" with
  | none => []
  | some deps =>
    if isObjectJS deps then
      jsSortPairs le
        (((jsEntries deps).filterMap depEntryString).filter
          fun kv => isExternalDependency externals kv.1)
    else []

/-- Getter `get peerDependencies()`: string-valued entries of the raw
`peerDependencies` (empty unless it is an object), sorted by key. -/
def pjPeerDependencies (j : JObj) (le : String → String → Bool) :
    List (String × String) :=
  match jlookup j "peerDependencies" with
  | none => []
  | some peers =>
    if isObjectJS peers then
      jsSortPairs le ((jsEntries peers).filterMap depEntryString)
    else []

/-- Guard `isObject(x) ? x : {}` applied to an optional raw field, as entries. -/
def guardObj : Option JVal → List (String × JVal)
  | some v => if isObjectJS v then jsEntries v else []
  | none => []

/-- Model of `Object.keys({...a, ...b})`: keys of `a`, then keys of `b` not already
present (spread keeps the first position of a repeated key). -/
def spreadKeys (a b : List (String × JVal)) : List String :=
  a.map Prod.fst ++ (b.map Prod.fst).filter fun k => !(a.map Prod.fst).contains k

/-- The `guaranteedExternals` of `get externalDependencies()`: keys of the
spread of the (object-guarded) raw `peerDependencies` and
`devDependencies`. -/
def guaranteedExternals (j : JObj) : List String :=
  spreadKeys (guardObj (jlookup j "peerDependencies"))
    (guardObj (jlookup j "devDependencies"))

/-- The `conditionalExternals` of `get externalDependencies()`:
`Object.keys(this.#json.dependencies ?? {})` filtered by the externals
globs.  Note the missing `isObject` guard: only `null`/`undefined` are
replaced by `{}`. -/
def conditionalExternals (j : JObj) (externals : List String) : List String :=
  (match jlookup j "dependencies" with
   | none => []
   | some .jnull => []
   | some v => jsKeys v).filter
    fun k => isExternalDependency externals k

/-- Getter `get externalDependencies()`: guaranteed plus conditional externals,
deduplicated via `Set` and sorted with the comparator. -/
def pjExternalDependencies (j : JObj) (externals : List String)
    (le : String → String → Bool) : List String :=
  jsSortStrs le (jsSetDedup (guaranteedExternals j ++ conditionalExternals j externals))

/-- The plain object produced by `PackageJson.build()`. -/
structure BuiltManifest where
  name : String
  description : String
  version : String
  type : String
  main : String
  module : String
  types : String
  dependencies : List (String × String)
  peerDependencies : List (String × String)

/-- Method `build()`. -/
def pjBuild (j : JObj) (externals : List String)
    (le : String → String → Bool) : BuiltManifest :=
  { name := pjName j
    description := pjDescription j
    version := pjVersion j
    type := "module"
    main := pjMainOut j
    module := pjModule j
    types := pjTypes j
    dependencies := pjDependencies j externals le
    peerDependencies := pjPeerDependencies j le }

/-! ## Claim-side helpers (the spec's reading of a raw dependency map) -/

/-- The entries of a raw field read as a map: a non-object field has no
entries under the spec's convention. -/
def rawMapEntries (j : JObj) (field : String) : List (String × JVal) :=
  match jlookup j field with
  | some (.jobj fs) => fs
  | _ => []

/-- The key set of a raw field read as a map. -/
def rawMapKeys (j : JObj) (field : String) : List String :=
  (rawMapEntries j field).map Prod.fst

/-- A raw field that is a map in the spec's sense: absent, `null`
(defaulted away by the source), or an object. -/
def MapLikeField (j : JObj) (field : String) : Prop :=
  jlookup j field = none ∨ jlookup j field = some JVal.jnull ∨
    ∃ fs, jlookup j field = some (JVal.jobj fs)

instance (j : JObj) (field : String) : Decidable (MapLikeField j field) :=
  match h : jlookup j field with
  | none => .isTrue (Or.inl h)
  | some .jnull => .isTrue (Or.inr (Or.inl h))
  | some (.jobj fs) => .isTrue (Or.inr (Or.inr ⟨fs, h⟩))
  | some (.jbool b) => .isFalse (by simp [MapLikeField, h])
  | some (.jnum n) => .isFalse (by simp [MapLikeField, h])
  | some (.jstr s) => .isFalse (by simp [MapLikeField, h])
  | some (.jarr xs) => .isFalse (by simp [MapLikeField, h])

/-! ## Memoisation structure of the getters (src/package-json.ts state)

The source holds three private memo fields (`#dependencies`,
`#peerDependencies`, `#externalDependencies`); `module`, `main` and
`types` getters have none.  Each access below returns the value, the new
memo state, and whether the getter body recomputed the value (`true`) or
returned the memoised one (`false`). -/

/-- The mutable memo fields of a `PackageJson` object. -/
structure PJCache where
  dependencies : Option (List (String × String))
  peerDependencies : Option (List (String × String))
  externalDependencies : Option (List String)

/-- The state of a freshly constructed `PackageJson`. -/
def emptyCache : PJCache := ⟨none, none, none⟩

/-- An access of `get module()`: no memo field, always recomputes. -/
def getModule (j : JObj) (st : PJCache) : String × PJCache × Bool :=
  (pjModule j, st, true)

/-- An access of the compiled `get main()`: no memo field. -/
def getMainOut (j : JObj) (st : PJCache) : String × PJCache × Bool :=
  (pjMainOut j, st, true)

/-- An access of `get types()`: no memo field. -/
def getTypes (j : JObj) (st : PJCache) : String × PJCache × Bool :=
  (pjTypes j, st, true)

/-- An access of `get dependencies()`: memoised, except that the
non-object early return `{}` bypasses the memo write. -/
def getDependencies (j : JObj) (externals : List String)
    (le : String → String → Bool) (st : PJCache) :
    List (String × String) × PJCache × Bool :=
  match st.dependencies with
  | some v => (v, st, false)
  | none =>
    match jlookup j "dependencies" with
    | some v =>
      if isObjectJS v then
        let computed := pjDependencies j externals le
        (computed, { st with dependencies := some computed }, true)
      else ([], st, true)
    | none => ([], st, true)

/-- An access of `get peerDependencies()`: memoised, with the same
non-object early return. -/
def getPeerDependencies (j : JObj) (le : String → String → Bool)
    (st : PJCache) : List (String × String) × PJCache × Bool :=
  match st.peerDependencies with
  | some v => (v, st, false)
  | none =>
    match jlookup j "peerDependencies" with
    | some v =>
      if isObjectJS v then
        let computed := pjPeerDependencies j le
        (computed, { st with peerDependencies := some computed }, true)
      else ([], st, true)
    | none => ([], st, true)

/-- An access of `get externalDependencies()`: memoised unconditionally. -/
def getExternalDependencies (j : JObj) (externals : List String)
    (le : String → String → Bool) (st : PJCache) :
    List String × PJCache × Bool :=
  match st.externalDependencies with
  | some v => (v, st, false)
  | none =>
    let computed := pjExternalDependencies j externals le
    (computed, { st with externalDependencies := some computed }, true)

/-! ## `SourceCode` (src/source-code.ts) -/

/-- One call to the external bundler, as configured by `#esbuildFile`
(only the claim-relevant fields). -/
structure EsbuildInvocation where
  format : String
  outfile : String
  entryPoints : List String
  external : List String

/-- The `external` array passed to the bundler:
`Array.from(new Set([...global, ...overrides, ...externalDependencies]))`. -/
def esbuildExternalArg (globalExternal overrideExternal : Option (List String))
    (extDeps : List String) : List String :=
  jsSetDedup (globalExternal.getD [] ++ overrideExternal.getD [] ++ extDeps)

/-- Model of `SourceCode.build()`: invoke the bundler for the CommonJS variant at
the derived `main` path, then the ES-module variant at the derived
`module` path.  The variant objects carry only `outfile` and `format`, so
the per-variant override external list is absent (`none`).  Path
resolution through `PackageDirectory` is abstracted as `resolvePkg` /
`resolveOut`. -/
def sourceCodeBuild (resolvePkg resolveOut : String → String) (j : JObj)
    (externals : List String) (le : String → String → Bool)
    (globalExternal : Option (List String)) : List EsbuildInvocation :=
  let extDeps := pjExternalDependencies j externals le
  [ { format := "cjs"
      outfile := resolveOut (pjMainOut j)
      entryPoints := [resolvePkg (pjEntryPoint j)]
      external := esbuildExternalArg globalExternal none extDeps }
  , { format := "esm"
      outfile := resolveOut (pjModule j)
      entryPoints := [resolvePkg (pjEntryPoint j)]
      external := esbuildExternalArg globalExternal none extDeps } ]

/-! ## `PackageBuilder` (src/package-builder.ts) and the filesystem
adapter -/

/-- One step of a build, in the order the orchestrator awaits them. -/
inductive BuildStep where
  | cleanFolder (path : String)
  | createFolder (path : String)
  | writeFile (path : String) (manifest : BuiltManifest)
  | esbuild (format : String) (outfile : String)
  | copyFile (source destination : String)

/-- Model of `PackageBuilder.build()`: clean the output root, create the output
`src` subfolder, write the transformed manifest, bundle the CommonJS then
the ES-module variant, then copy the configured files.  `writeOk` models
whether `writeFile` resolves (its errors propagate) and `esbuildOk f`
whether the bundler invocation for format `f` resolves; `cleanFolder`,
`createFolder` and `copyFile` swallow their errors and never reject.
Returns the steps awaited (in order) and whether the build resolved. -/
def packageBuilderBuild (resolvePkg resolveOut : List String → String)
    (j : JObj) (externals : List String) (le : String → String → Bool)
    (copyFiles : List String) (writeOk : Bool) (esbuildOk : String → Bool) :
    List BuildStep × Bool :=
  let pre := [BuildStep.cleanFolder (resolveOut []),
              BuildStep.createFolder (resolveOut ["src"]),
              BuildStep.writeFile (resolveOut ["package.json"])
                (pjBuild j externals le)]
  if !writeOk then (pre, false)
  else
    let cjsStep := BuildStep.esbuild "cjs" (resolveOut [pjMainOut j])
    if !esbuildOk "cjs" then (pre ++ [cjsStep], false)
    else
      let esmStep := BuildStep.esbuild "esm" (resolveOut [pjModule j])
      if !esbuildOk "esm" then (pre ++ [cjsStep, esmStep], false)
      else
        (pre ++ [cjsStep, esmStep] ++
          copyFiles.map fun f =>
            BuildStep.copyFile (resolvePkg [f]) (resolveOut [f]), true)

/-- One filesystem action attempted by the adapter's `copyFile`. -/
inductive FsAction where
  | mkdirParents (destination : String)
  | copy (source destination : String)

/-- Model of `FileSystem.copyFile(source, destination)`: returns `false` when the
source does not exist (attempting nothing), otherwise creates the
destination's parent directories and copies, catching any error as
`false`.  The oracles model whether the source exists and whether each
awaited operation resolves; the returned list is the actions attempted. -/
def fsCopyFile (source destination : String)
    (sourceExists mkdirOk copyOk : Bool) : Bool × List FsAction :=
  if !sourceExists then (false, [])
  else if !mkdirOk then (false, [FsAction.mkdirParents destination])
  else if !copyOk then
    (false, [FsAction.mkdirParents destination, FsAction.copy source destination])
  else
    (true, [FsAction.mkdirParents destination, FsAction.copy source destination])

/-! ## Helper lemmas about the modelled sort -/

theorem mem_jsSortStrs (le : String → String → Bool) (l : List String)
    (x : String) : x ∈ jsSortStrs le l ↔ x ∈ l :=
  (List.perm_insertionSort _ l).mem_iff

theorem mem_jsSortPairs (le : String → String → Bool)
    (l : List (String × String)) (x : String × String) :
    x ∈ jsSortPairs le l ↔ x ∈ l :=
  (List.perm_insertionSort _ l).mem_iff

theorem sorted_jsSortStrs (le : String → String → Bool)
    (htot : ∀ a b, le a b = true ∨ le b a = true)
    (htrans : ∀ a b c, le a b = true → le b c = true → le a c = true)
    (l : List String) :
    List.Sorted (fun a b => le a b = true) (jsSortStrs le l) := by
  letI : IsTotal String (fun a b => le a b = true) := ⟨htot⟩
  letI : IsTrans String (fun a b => le a b = true) := ⟨fun a b c => htrans a b c⟩
  exact List.sorted_insertionSort _ l

theorem sorted_jsSortPairs (le : String → String → Bool)
    (htot : ∀ a b, le a b = true ∨ le b a = true)
    (htrans : ∀ a b c, le a b = true → le b c = true → le a c = true)
    (l : List (String × String)) :
    List.Sorted (fun p q : String × String => le p.1 q.1 = true)
      (jsSortPairs le l) := by
  letI : IsTotal (String × String) (fun p q : String × String => le p.1 q.1 = true) :=
    ⟨fun p q => htot p.1 q.1⟩
  letI : IsTrans (String × String) (fun p q : String × String => le p.1 q.1 = true) :=
    ⟨fun p q r => htrans p.1 q.1 r.1⟩
  exact List.sorted_insertionSort _ l

theorem nodup_jsSortStrs_of_nodup (le : String → String → Bool)
    (l : List String) (h : l.Nodup) : (jsSortStrs le l).Nodup :=
  (List.perm_insertionSort _ l).nodup_iff.mpr h

/-! ## Claim C7 -/

/-- C7: for each of the two bundler invocations (CommonJS at the derived
`main` path, then ES module at the derived `module` path), the `external`
list passed to the bundler is the deduplicated union of the caller's
global build-option externals, the per-variant override externals (absent
on both variant objects), and the manifest's `externalDependencies`. -/
theorem bundler_external_list_union (rp ro : String → String) (j : JObj)
    (exts : List String) (le : String → String → Bool)
    (g : Option (List String)) :
    sourceCodeBuild rp ro j exts le g =
      [ { format := "cjs"
          outfile := ro (pjMainOut j)
          entryPoints := [rp (pjEntryPoint j)]
          external := esbuildExternalArg g none (pjExternalDependencies j exts le) }
      , { format := "esm"
          outfile := ro (pjModule j)
          entryPoints := [rp (pjEntryPoint j)]
          external := esbuildExternalArg g none (pjExternalDependencies j exts le) } ] ∧
    (esbuildExternalArg g none (pjExternalDependencies j exts le)).Nodup ∧
    ∀ x, x ∈ esbuildExternalArg g none (pjExternalDependencies j exts le) ↔
      (x ∈ g.getD [] ∨ x ∈ (none : Option (List String)).getD [] ∨
        x ∈ pjExternalDependencies j exts le) := by
  refine ⟨rfl, nodup_jsSetDedup _, fun x => ?_⟩
  simp [esbuildExternalArg, mem_jsSetDedup, or_assoc]

/-! ## Claim C8 -/

/-- C8: a full build performs, in strict order: clean the output root,
create the output `src` subfolder, write the transformed manifest to
`<output>/package.json`, bundle the CommonJS then the ES-module variant,
and finally copy the configured files; a failing `writeFile` stops before
any bundling, and a failing bundler invocation stops the build with no
copy step ever attempted. -/
theorem build_sequence_order (rp ro : List String → String) (j : JObj)
    (exts : List String) (le : String → String → Bool)
    (copyFiles : List String) (writeOk : Bool) (esbuildOk : String → Bool) :
    (writeOk = true → esbuildOk "cjs" = true → esbuildOk "esm" = true →
      packageBuilderBuild rp ro j exts le copyFiles writeOk esbuildOk =
        ([BuildStep.cleanFolder (ro []),
          BuildStep.createFolder (ro ["src"]),
          BuildStep.writeFile (ro ["package.json"]) (pjBuild j exts le),
          BuildStep.esbuild "cjs" (ro [pjMainOut j]),
          BuildStep.esbuild "esm" (ro [pjModule j])] ++
          copyFiles.map (fun f => BuildStep.copyFile (rp [f]) (ro [f])), true)) ∧
    (writeOk = false →
      packageBuilderBuild rp ro j exts le copyFiles writeOk esbuildOk =
        ([BuildStep.cleanFolder (ro []),
          BuildStep.createFolder (ro ["src"]),
          BuildStep.writeFile (ro ["package.json"]) (pjBuild j exts le)], false)) ∧
    ((esbuildOk "cjs" = false ∨ esbuildOk "esm" = false) →
      (packageBuilderBuild rp ro j exts le copyFiles writeOk esbuildOk).2 = false ∧
      ∀ s d, BuildStep.copyFile s d ∉
        (packageBuilderBuild rp ro j exts le copyFiles writeOk esbuildOk).1) := by
  refine ⟨?_, ?_, ?_⟩
  · intro hw hc he
    simp [packageBuilderBuild, hw, hc, he]
  · intro hw
    simp [packageBuilderBuild, hw]
  · intro hfail
    cases hw : writeOk with
    | false =>
      constructor
      · simp [packageBuilderBuild, hw]
      · intro s d
        simp [packageBuilderBuild, hw]
    | true =>
      cases hc : esbuildOk "cjs" with
      | false =>
        constructor
        · simp [packageBuilderBuild, hw, hc]
        · intro s d
          simp [packageBuilderBuild, hw, hc]
      | true =>
        cases he : esbuildOk "esm" with
        | false =>
          constructor
          · simp [packageBuilderBuild, hw, hc, he]
          · intro s d
            simp [packageBuilderBuild, hw, hc, he]
        | true =>
          rcases hfail with h | h
          · rw [hc] at h; cases h
          · rw [he] at h; cases h

/-- Witness for C8: a concrete fully successful build produces exactly the
five ordered steps followed by the one configured copy. -/
theorem build_sequence_order_witness :
    packageBuilderBuild (fun _ => "pkg") (fun _ => "out") [] [] strLeB
        ["README.md"] true (fun _ => true) =
      ([BuildStep.cleanFolder "out", BuildStep.createFolder "out",
        BuildStep.writeFile "out" (pjBuild [] [] strLeB),
        BuildStep.esbuild "cjs" "out", BuildStep.esbuild "esm" "out",
        BuildStep.copyFile "pkg" "out"], true) := by
  have h := (build_sequence_order (fun _ => "pkg") (fun _ => "out") [] []
    strLeB ["README.md"] true (fun _ => true)).1 rfl rfl rfl
  simpa using h

/-! ## Claim C9 -/

/-- C9: the filesystem adapter's `copyFile` never rejects: a missing
source yields `false` with nothing attempted (no directories created);
otherwise it creates the destination's parents and copies, returning
`true` on success and `false` (rather than propagating) when the
directory creation or the copy fails. -/
theorem copyFile_reports_failure (source destination : String)
    (sourceExists mkdirOk copyOk : Bool) :
    (sourceExists = false →
      fsCopyFile source destination sourceExists mkdirOk copyOk = (false, [])) ∧
    (sourceExists = true → mkdirOk = false →
      fsCopyFile source destination sourceExists mkdirOk copyOk =
        (false, [FsAction.mkdirParents destination])) ∧
    (sourceExists = true → mkdirOk = true → copyOk = false →
      fsCopyFile source destination sourceExists mkdirOk copyOk =
        (false, [FsAction.mkdirParents destination,
          FsAction.copy source destination])) ∧
    (sourceExists = true → mkdirOk = true → copyOk = true →
      fsCopyFile source destination sourceExists mkdirOk copyOk =
        (true, [FsAction.mkdirParents destination,
          FsAction.copy source destination])) := by
  refine ⟨?_, ?_, ?_, ?_⟩
  · intro h; simp [fsCopyFile, h]
  · intro h1 h2; simp [fsCopyFile, h1, h2]
  · intro h1 h2 h3; simp [fsCopyFile, h1, h2, h3]
  · intro h1 h2 h3; simp [fsCopyFile, h1, h2, h3]

/-- Witness for C9: copying from a concrete non-existent source returns
`false` and attempts no filesystem action. -/
theorem copyFile_reports_failure_witness :
    fsCopyFile "missing.txt" "dist/missing.txt" false true true = (false, []) :=
  (copyFile_reports_failure "missing.txt" "dist/missing.txt" false true true).1 rfl

/-! ## Claim C10 -/

/-- C10: the `name` and `description` accessors are total: an absent or
`null` raw field yields `""`, and any other raw value is coerced through
the JavaScript `String()` conversion (so a numeric `name` `42` yields the
string `"42"`). -/
theorem name_description_coercion (j : JObj) :
    ((jlookup j "name" = none ∨ jlookup j "name" = some JVal.jnull) →
      pjName j = "") ∧
    (∀ v, jlookup j "name" = some v → v ≠ JVal.jnull → pjName j = jsString v) ∧
    (∀ n, jlookup j "name" = some (JVal.jnum n) → pjName j = toString n) ∧
    ((jlookup j "description" = none ∨
        jlookup j "description" = some JVal.jnull) →
      pjDescription j = "") ∧
    (∀ v, jlookup j "description" = some v → v ≠ JVal.jnull →
      pjDescription j = jsString v) ∧
    (∀ n, jlookup j "description" = some (JVal.jnum n) →
      pjDescription j = toString n) := by
  refine ⟨?_, ?_, ?_, ?_, ?_, ?_⟩
  · rintro (h | h) <;> simp [pjName, h, jsString]
  · intro v hv hne
    cases v with
    | jnull => exact absurd rfl hne
    | jbool b => simp [pjName, hv]
    | jnum n => simp [pjName, hv]
    | jstr s => simp [pjName, hv]
    | jarr xs => simp [pjName, hv]
    | jobj fs => simp [pjName, hv]
  · intro n hn
    simp [pjName, hn, jsString]
  · rintro (h | h) <;> simp [pjDescription, h, jsString]
  · intro v hv hne
    cases v with
    | jnull => exact absurd rfl hne
    | jbool b => simp [pjDescription, hv]
    | jnum n => simp [pjDescription, hv]
    | jstr s => simp [pjDescription, hv]
    | jarr xs => simp [pjDescription, hv]
    | jobj fs => simp [pjDescription, hv]
  · intro n hn
    simp [pjDescription, hn, jsString]

/-- Witness for C10: a numeric `name` of `42` is returned as `"42"`. -/
theorem name_description_coercion_witness :
    pjName [("name", JVal.jnum 42)] = "42" := by
  rw [(name_description_coercion [("name", JVal.jnum 42)]).2.2.1 42 rfl]
  rfl

/-! ## Claim C4 -/

/-- The claim's reading of `*`: candidate remainders after a star that may
only span non-separator characters. -/
def specStarSuffixesNoSep : List Char → List (List Char)
  | [] => [[]]
  | c :: cs =>
    (c :: cs) :: (if c = '/' then [] else specStarSuffixesNoSep cs)

/-- The claim's matcher: like `gmatch`, but `*` spans only non-separator
runs. -/
def specGmatchNoSep : List GTok → List Char → Bool
  | [], s => s.isEmpty
  | .lit c :: ts, s =>
    match s with
    | [] => false
    | d :: ds => c = d && specGmatchNoSep ts ds
  | .star :: ts, s =>
    (specStarSuffixesNoSep s).any (fun s' => specGmatchNoSep ts s')

/-- The claim's externality predicate, with the non-separator `*`. -/
def specIsExternalNoSep (externals : List String) (name : String) : Bool :=
  externals.any fun pattern =>
    specGmatchNoSep (globToTokens pattern.data) name.data

/-- Counterexample to C4 as stated: under the code's translation
(`glob-to-regexp` with default options turns `*` into `.*`), the pattern
`*` does match the separator-containing name `a/b`, whereas the claimed
non-separator semantics rejects it. -/
theorem star_matches_separator_counterexample :
    isExternalDependency ["*"] "a/b" = true ∧
    specIsExternalNoSep ["*"] "a/b" = false := by
  decide

/-- C4 as amended: a dependency name counts as external exactly when it
matches at least one configured pattern under the case-sensitive
glob-to-regex translation in which `*` matches any run of characters
other than the four line terminators — separators included (patterns
containing a backslash, which the library would splice into the regex
unescaped, are out of scope). -/
theorem external_glob_semantics (externals : List String) (name : String)
    (_hbs : ∀ g ∈ externals, '\\' ∉ g.data) :
    isExternalDependency externals name = true ↔
      ∃ g ∈ externals, GMatches (globToTokens g.data) name.data := by
  simp only [isExternalDependency, List.any_eq_true, globTest,
    gmatch_iff_GMatches]

/-- Witness for C4 (amended): `re*ct` matches `react`. -/
theorem external_glob_semantics_witness :
    ∃ g ∈ (["re*ct"] : List String),
      GMatches (globToTokens g.data) "react".data :=
  (external_glob_semantics ["re*ct"] "react" (by decide)).mp (by decide)

/-! ## Claim C5 -/

/-- Counterexample to C5 as stated: a manifest whose raw `dependencies`
field is the string `"ab"` makes `externalDependencies` (with glob `*`)
report the string's index keys `"0"` and `"1"` — names drawn from a
non-object field, which the claim says contributes nothing. -/
theorem string_dependencies_leak_counterexample :
    pjExternalDependencies [("dependencies", JVal.jstr "ab")] ["*"] strLeB =
      ["0", "1"] ∧
    ("0" : String) ∈
      pjExternalDependencies [("dependencies", JVal.jstr "ab")] ["*"] strLeB := by
  constructor
  · decide
  · decide

/-- C5 as amended: the derived `dependencies` and `peerDependencies` are
empty when the corresponding raw field is not an object, and
`externalDependencies` draws no names from a non-object
`peerDependencies` or `devDependencies` field; a non-object, non-string
raw `dependencies` field likewise contributes nothing, but a string
`dependencies` field contributes its character index strings that match
an externals glob (the `?? {}` in `conditionalExternals` guards only
`null`/`undefined`, not other non-objects). -/
theorem nonobject_fields_default_empty (j : JObj) (exts : List String)
    (le : String → String → Bool) :
    (∀ v, jlookup j "dependencies" = some v → isObjectJS v = false →
      pjDependencies j exts le = []) ∧
    (∀ v, jlookup j "peerDependencies" = some v → isObjectJS v = false →
      pjPeerDependencies j le = []) ∧
    (∀ v, jlookup j "peerDependencies" = some v → isObjectJS v = false →
      guaranteedExternals j =
        (guardObj (jlookup j "devDependencies")).map Prod.fst) ∧
    (∀ v, jlookup j "devDependencies" = some v → isObjectJS v = false →
      guaranteedExternals j =
        (guardObj (jlookup j "peerDependencies")).map Prod.fst) ∧
    (∀ n, jlookup j "dependencies" = some (JVal.jnum n) →
      conditionalExternals j exts = []) ∧
    (∀ b, jlookup j "dependencies" = some (JVal.jbool b) →
      conditionalExternals j exts = []) ∧
    (∀ s, jlookup j "dependencies" = some (JVal.jstr s) →
      conditionalExternals j exts =
        ((List.range s.length).map fun i => toString i).filter
          fun k => isExternalDependency exts k) := by
  refine ⟨?_, ?_, ?_, ?_, ?_, ?_, ?_⟩
  · intro v hv hobj
    simp [pjDependencies, hv, hobj]
  · intro v hv hobj
    simp [pjPeerDependencies, hv, hobj]
  · intro v hv hobj
    simp [guaranteedExternals, guardObj, hv, hobj, spreadKeys]
  · intro v hv hobj
    simp [guaranteedExternals, guardObj, hv, hobj, spreadKeys]
  · intro n hn
    simp [conditionalExternals, hn, jsKeys, jsEntries]
  · intro b hb
    simp [conditionalExternals, hb, jsKeys, jsEntries]
  · intro s hs
    simp only [conditionalExternals, hs, jsKeys, jsEntries, List.map_map]
    rw [show s.length = s.data.length from rfl, ← List.enum_map_fst s.data,
      List.map_map]
    rfl

/-- Witness for C5 (amended): a numeric `dependencies` field and a
boolean `peerDependencies` field contribute nothing. -/
theorem nonobject_fields_default_empty_witness :
    pjDependencies [("dependencies", JVal.jnum 5),
      ("peerDependencies", JVal.jbool true)] ["*"] strLeB = [] ∧
    conditionalExternals [("dependencies", JVal.jnum 5),
      ("peerDependencies", JVal.jbool true)] ["*"] = [] :=
  ⟨(nonobject_fields_default_empty _ ["*"] strLeB).1 (JVal.jnum 5) rfl rfl,
   (nonobject_fields_default_empty _ ["*"] strLeB).2.2.2.2.1 5 rfl⟩

/-! ## Claim C6 -/

/-- Counterexample to C6 as stated: the `module` getter has no memo field,
so a second access recomputes it (the access reports a fresh computation)
instead of returning a cached value. -/
theorem module_recompute_counterexample :
    (getModule [] emptyCache).2.2 = true ∧
    (getModule [] ((getModule [] emptyCache).2.1)).2.2 = true :=
  ⟨rfl, rfl⟩

/-- C6 as amended: `dependencies` and `peerDependencies` (when their raw
fields are objects) and `externalDependencies` (always) are computed once
and the memoised value is returned by every later access; `module`,
`main` and `types` are recomputed on every access but each access yields
the same value and leaves the memo state untouched; no getter ever
changes the raw manifest, which the model keeps as an immutable
parameter. -/
theorem memoisation_structure (j : JObj) (exts : List String)
    (le : String → String → Bool) (st : PJCache) :
    (getModule j st = (pjModule j, st, true)) ∧
    (getMainOut j st = (pjMainOut j, st, true)) ∧
    (getTypes j st = (pjTypes j, st, true)) ∧
    ((getDependencies j exts le
        ((getDependencies j exts le st).2.1)).1 =
      (getDependencies j exts le st).1) ∧
    (st.dependencies = none →
      ∀ fs, jlookup j "dependencies" = some (JVal.jobj fs) →
        (getDependencies j exts le st).2.2 = true ∧
        (getDependencies j exts le
          ((getDependencies j exts le st).2.1)).2.2 = false) ∧
    (st.peerDependencies = none →
      ∀ fs, jlookup j "peerDependencies" = some (JVal.jobj fs) →
        (getPeerDependencies j le st).2.2 = true ∧
        (getPeerDependencies j le
          ((getPeerDependencies j le st).2.1)).2.2 = false) ∧
    (st.externalDependencies = none →
      (getExternalDependencies j exts le st).2.2 = true ∧
      (getExternalDependencies j exts le
        ((getExternalDependencies j exts le st).2.1)).2.2 = false ∧
      (getExternalDependencies j exts le
        ((getExternalDependencies j exts le st).2.1)).1 =
        (getExternalDependencies j exts le st).1) := by
  refine ⟨rfl, rfl, rfl, ?_, ?_, ?_, ?_⟩
  · match hst : st.dependencies with
    | some v => simp [getDependencies, hst]
    | none =>
      match hdep : jlookup j "dependencies" with
      | none => simp [getDependencies, hst, hdep]
      | some v =>
        cases hobj : isObjectJS v with
        | true => simp [getDependencies, hst, hdep, hobj]
        | false => simp [getDependencies, hst, hdep, hobj]
  · intro hst fs hdep
    simp [getDependencies, hst, hdep, isObjectJS]
  · intro hst fs hdep
    simp [getPeerDependencies, hst, hdep, isObjectJS]
  · intro hst
    simp [getExternalDependencies, hst]

/-- Witness for C6 (amended): on a concrete manifest with an object
`dependencies`, the first access computes and the second is served from
the memo. -/
theorem memoisation_structure_witness :
    (getDependencies [("dependencies", JVal.jobj [("a", JVal.jstr "1")])]
      [] strLeB emptyCache).2.2 = true ∧
    (getDependencies [("dependencies", JVal.jobj [("a", JVal.jstr "1")])]
      [] strLeB
      ((getDependencies [("dependencies", JVal.jobj [("a", JVal.jstr "1")])]
        [] strLeB emptyCache).2.1)).2.2 = false :=
  (memoisation_structure [("dependencies", JVal.jobj [("a", JVal.jstr "1")])]
    [] strLeB emptyCache).2.2.2.2.1 rfl [("a", JVal.jstr "1")] rfl

/-! ## Claims C3 and C1 -/

theorem depEntryString_eq_some (a : String × JVal) (k v : String) :
    depEntryString a = some (k, v) ↔ a = (k, JVal.jstr v) := by
  obtain ⟨k', w⟩ := a
  cases w <;> simp [depEntryString]

/-- C3: the derived `dependencies` keeps exactly the entries of the raw
`dependencies` map whose key matches a configured externals glob and
whose version value is a string (non-string values are dropped regardless
of a match), and the surviving entries are sorted by key under the
comparator of the source's `localeCompare` sort. -/
theorem dependencies_filter_sorted_spec (j : JObj) (exts : List String)
    (le : String → String → Bool)
    (hdep : ∀ xs, jlookup j "dependencies" ≠ some (JVal.jarr xs))
    (htot : ∀ a b, le a b = true ∨ le b a = true)
    (htrans : ∀ a b c, le a b = true → le b c = true → le a c = true) :
    (∀ k v, (k, v) ∈ pjDependencies j exts le ↔
      ((k, JVal.jstr v) ∈ rawMapEntries j "dependencies" ∧
        isExternalDependency exts k = true)) ∧
    List.Sorted (fun p q : String × String => le p.1 q.1 = true)
      (pjDependencies j exts le) := by
  constructor
  · intro k v
    match h : jlookup j "dependencies" with
    | none => simp [pjDependencies, rawMapEntries, h]
    | some .jnull => simp [pjDependencies, rawMapEntries, h, isObjectJS]
    | some (.jbool b) => simp [pjDependencies, rawMapEntries, h, isObjectJS]
    | some (.jnum n) => simp [pjDependencies, rawMapEntries, h, isObjectJS]
    | some (.jstr s) => simp [pjDependencies, rawMapEntries, h, isObjectJS]
    | some (.jarr xs) => exact absurd h (hdep xs)
    | some (.jobj fs) =>
      simp only [pjDependencies, h, isObjectJS, if_true, rawMapEntries,
        mem_jsSortPairs, List.mem_filter, List.mem_filterMap, jsEntries,
        depEntryString_eq_some, exists_eq_right]
  · match h : jlookup j "dependencies" with
    | none => simp [pjDependencies, h]
    | some .jnull => simp [pjDependencies, h, isObjectJS]
    | some (.jbool b) => simp [pjDependencies, h, isObjectJS]
    | some (.jnum n) => simp [pjDependencies, h, isObjectJS]
    | some (.jstr s) => simp [pjDependencies, h, isObjectJS]
    | some (.jarr xs) => exact absurd h (hdep xs)
    | some (.jobj fs) =>
      simp only [pjDependencies, h, isObjectJS, if_true]
      exact sorted_jsSortPairs le htot htrans _

/-- Witness for C3: on the source's own doc-comment example, the matching
entry survives and a non-matching one does not. -/
theorem dependencies_filter_sorted_spec_witness :
    ("eslint", "8.0.0") ∈ pjDependencies
      [("dependencies", JVal.jobj
        [("eslint", JVal.jstr "8.0.0"), ("typescript", JVal.jstr "4.4.3")])]
      ["eslint"] strLeB := by
  have hdep : ∀ xs, jlookup
      [("dependencies", JVal.jobj
        [("eslint", JVal.jstr "8.0.0"), ("typescript", JVal.jstr "4.4.3")])]
      "dependencies" ≠ some (JVal.jarr xs) := by
    intro xs h
    have h0 : jlookup
        [("dependencies", JVal.jobj
          [("eslint", JVal.jstr "8.0.0"), ("typescript", JVal.jstr "4.4.3")])]
        "dependencies" = some (JVal.jobj
          [("eslint", JVal.jstr "8.0.0"), ("typescript", JVal.jstr "4.4.3")]) := rfl
    rw [h0] at h
    simp at h
  exact ((dependencies_filter_sorted_spec _ ["eslint"] strLeB hdep
    strLeB_total strLeB_trans).1 "eslint" "8.0.0").mpr
    ⟨List.mem_cons_self _ _, by decide⟩

theorem mem_spreadKeys (a b : List (String × JVal)) (x : String) :
    x ∈ spreadKeys a b ↔ x ∈ a.map Prod.fst ∨ x ∈ b.map Prod.fst := by
  simp only [spreadKeys, List.mem_append, List.mem_filter]
  constructor
  · rintro (h | ⟨h, _⟩)
    · exact Or.inl h
    · exact Or.inr h
  · rintro (h | h)
    · exact Or.inl h
    · by_cases hx : x ∈ a.map Prod.fst
      · exact Or.inl hx
      · refine Or.inr ⟨h, ?_⟩
        simpa [List.contains, List.elem_iff] using hx

theorem guardObj_of_mapLike (j : JObj) (field : String)
    (h : MapLikeField j field) :
    guardObj (jlookup j field) = rawMapEntries j field := by
  rcases h with h | h | ⟨fs, h⟩ <;>
    simp [guardObj, rawMapEntries, h, isObjectJS, jsEntries]

theorem mem_guaranteedExternals (j : JObj)
    (hpeer : MapLikeField j "peerDependencies")
    (hdev : MapLikeField j "devDependencies") (x : String) :
    x ∈ guaranteedExternals j ↔
      x ∈ rawMapKeys j "peerDependencies" ∨
        x ∈ rawMapKeys j "devDependencies" := by
  unfold guaranteedExternals
  rw [mem_spreadKeys, guardObj_of_mapLike j _ hpeer,
    guardObj_of_mapLike j _ hdev]
  rfl

theorem mem_conditionalExternals (j : JObj) (exts : List String)
    (hdep : MapLikeField j "dependencies") (x : String) :
    x ∈ conditionalExternals j exts ↔
      x ∈ rawMapKeys j "dependencies" ∧
        isExternalDependency exts x = true := by
  rcases hdep with h | h | ⟨fs, h⟩ <;>
    simp [conditionalExternals, h, rawMapKeys, rawMapEntries, jsKeys,
      jsEntries, List.mem_filter]

/-- C1: `externalDependencies` contains every key of the raw
`peerDependencies` and `devDependencies` maps regardless of the externals
globs, plus exactly the keys of the raw `dependencies` map that match at
least one glob, deduplicated and sorted under the comparator of the
source's `localeCompare` sort.  (The raw fields are assumed to be maps in
the spec's sense — absent, `null` or an object; a string-valued
`dependencies` leaks index keys, settled separately as claim C5.) -/
theorem externalDependencies_union_spec (j : JObj) (exts : List String)
    (le : String → String → Bool)
    (hdep : MapLikeField j "dependencies")
    (hpeer : MapLikeField j "peerDependencies")
    (hdev : MapLikeField j "devDependencies")
    (htot : ∀ a b, le a b = true ∨ le b a = true)
    (htrans : ∀ a b c, le a b = true → le b c = true → le a c = true) :
    (∀ x, x ∈ pjExternalDependencies j exts le ↔
      (x ∈ rawMapKeys j "peerDependencies" ∨
        x ∈ rawMapKeys j "devDependencies" ∨
        (x ∈ rawMapKeys j "dependencies" ∧
          isExternalDependency exts x = true))) ∧
    List.Sorted (fun a b => le a b = true)
      (pjExternalDependencies j exts le) ∧
    (pjExternalDependencies j exts le).Nodup := by
  refine ⟨fun x => ?_, sorted_jsSortStrs le htot htrans _,
    nodup_jsSortStrs_of_nodup le _ (nodup_jsSetDedup _)⟩
  unfold pjExternalDependencies
  rw [mem_jsSortStrs, mem_jsSetDedup, List.mem_append,
    mem_guaranteedExternals j hpeer hdev, mem_conditionalExternals j exts hdep,
    or_assoc]

/-- Witness for C1: on the source's own doc-comment example, the dev
dependency `jest` is reported external even though no glob matches it. -/
theorem externalDependencies_union_spec_witness :
    ("jest" : String) ∈ pjExternalDependencies
      [("dependencies", JVal.jobj
        [("eslint", JVal.jstr "8.0.0"), ("typescript", JVal.jstr "4.4.3")]),
       ("peerDependencies", JVal.jobj
        [("react", JVal.jstr "17.0.2"), ("react-dom", JVal.jstr "17.0.2")]),
       ("devDependencies", JVal.jobj [("jest", JVal.jstr "27.2.0")])]
      ["eslint"] strLeB :=
  ((externalDependencies_union_spec _ ["eslint"] strLeB
    (by decide) (by decide) (by decide) strLeB_total strLeB_trans).1
    "jest").mpr (Or.inr (Or.inl (by decide)))

/-! ## Claim C2 -/

/-- The claim's "replace the extension": drop the extension's characters
from the end of the path and append the new suffix. -/
def strDropRight (s : String) (n : Nat) : String :=
  String.mk (s.data.take (s.data.length - n))

theorem take_append_sub {α : Type} (P E : List α) :
    (P ++ E).take ((P ++ E).length - E.length) = P := by
  rw [List.length_append, Nat.add_sub_cancel, List.take_left]

theorem parseCore_eq (isAbs : Bool) (u : List Char) (hu : u ≠ [])
    (hlast : u.getLast? ≠ some '/')
    (hdot : ¬((splitAtLast '.' (splitAtLast '/' u).2).1 = [] ∨
      (splitAtLast '.' (splitAtLast '/' u).2).1 = ['.'] ∨
      (splitAtLast '/' u).2 = ['.', '.'])) :
    parseCore isAbs u =
      ((if (splitAtLast '/' u).1 = [] then (if isAbs then ['/'] else [])
        else (if isAbs then ['/'] else []) ++ (splitAtLast '/' u).1.dropLast),
       (splitAtLast '/' u).2,
       '.' :: (splitAtLast '.' (splitAtLast '/' u).2).2,
       (splitAtLast '.' (splitAtLast '/' u).2).1.dropLast) := by
  have htrim := trimTrailingSlashes_of_getLast_ne u hu hlast
  simp only [parseCore, htrim, if_neg hu, if_neg hdot]

theorem parseCore_rebuild (isAbs : Bool) (u : List Char)
    (hlast : u.getLast? ≠ some '/')
    (hext : (parseCore isAbs u).2.2.1 ≠ []) :
    ('/' ∈ u →
      (if isAbs then ['/'] else []) ++ u =
        ((parseCore isAbs u).1 ++ '/' :: (parseCore isAbs u).2.2.2) ++
          (parseCore isAbs u).2.2.1) ∧
    ('/' ∉ u →
      (parseCore isAbs u).1 = (if isAbs then ['/'] else []) ∧
      u = (parseCore isAbs u).2.2.2 ++ (parseCore isAbs u).2.2.1) := by
  by_cases hu : u = []
  · exfalso
    exact hext (by simp [hu, parseCore, trimTrailingSlashes])
  · have htrim := trimTrailingSlashes_of_getLast_ne u hu hlast
    by_cases hdot : (splitAtLast '.' (splitAtLast '/' u).2).1 = [] ∨
        (splitAtLast '.' (splitAtLast '/' u).2).1 = ['.'] ∨
        (splitAtLast '/' u).2 = ['.', '.']
    · exfalso
      exact hext (by simp [parseCore, htrim, if_neg hu, hdot])
    · have hc := parseCore_eq isAbs u hu hlast hdot
      set P1 := (splitAtLast '/' u).1 with hP1
      set B := (splitAtLast '/' u).2 with hB
      set N := splitAtLast '.' B with hN
      have hslashsplit : P1 ++ B = u := splitAtLast_append '/' u
      have hdotsplit : N.1 ++ N.2 = B := splitAtLast_append '.' B
      have hne1 : N.1 ≠ [] := fun h => hdot (Or.inl h)
      have hnedot : N.1 = N.1.dropLast ++ ['.'] :=
        splitAtLast_fst_ends '.' B hne1
      have hbase : B = N.1.dropLast ++ ('.' :: N.2) := by
        conv_lhs => rw [← hdotsplit]
        conv_lhs => rw [hnedot]
        rw [List.append_assoc, List.singleton_append]
      have hdir_eq : (parseCore isAbs u).1 =
          (if P1 = [] then (if isAbs then ['/'] else [])
           else (if isAbs then ['/'] else []) ++ P1.dropLast) := by
        rw [hc]
      have hext_eq : (parseCore isAbs u).2.2.1 = '.' :: N.2 := by rw [hc]
      have hname_eq : (parseCore isAbs u).2.2.2 = N.1.dropLast := by rw [hc]
      refine ⟨fun hsl => ?_, fun hnsl => ?_⟩
      · have hp1ne : P1 ≠ [] := by
          rw [hP1, Ne, splitAtLast_fst_eq_nil_iff]
          simpa using hsl
        have hp1 : P1 = P1.dropLast ++ ['/'] :=
          splitAtLast_fst_ends '/' u hp1ne
        rw [hext_eq, hname_eq, hdir_eq, if_neg hp1ne]
        calc (if isAbs then ['/'] else []) ++ u
            = (if isAbs then ['/'] else []) ++ (P1 ++ B) := by
              rw [hslashsplit]
          _ = (if isAbs then ['/'] else []) ++
                ((P1.dropLast ++ ['/']) ++
                  (N.1.dropLast ++ ('.' :: N.2))) := by
              conv_lhs => rw [hp1, hbase]
          _ = (((if isAbs then ['/'] else []) ++ P1.dropLast) ++
                '/' :: N.1.dropLast) ++ ('.' :: N.2) := by
              simp [List.append_assoc]
      · have hp1 : P1 = [] := by
          rw [hP1]
          exact (splitAtLast_fst_eq_nil_iff '/' u).mpr hnsl
        have hu2 : B = u := by rw [← hslashsplit, hp1, List.nil_append]
        refine ⟨by rw [hdir_eq, if_pos hp1], ?_⟩
        rw [hext_eq, hname_eq, ← hu2]
        exact hbase

theorem posixParse_rebuild (L : List Char)
    (hlast : L.getLast? ≠ some '/')
    (hext : (posixParse (String.mk L)).ext ≠ "") :
    ('/' ∈ L.drop 1 →
      (posixParse (String.mk L)).dir ++ "/" ++ (posixParse (String.mk L)).name =
        strDropRight (String.mk L) (posixParse (String.mk L)).ext.length) ∧
    ('/' ∉ L.drop 1 →
      (posixParse (String.mk L)).dir ++ "/" ++ (posixParse (String.mk L)).name =
        "/" ++ strDropRight (String.mk L) (posixParse (String.mk L)).ext.length) := by
  match L, hlast, hext with
  | [], _, hext => exact absurd rfl hext
  | c0 :: rest, hlast, hext =>
    by_cases habs : c0 = '/'
    · subst habs
      have hpp : posixParse (String.mk ('/' :: rest)) =
          ⟨"/", String.mk (parseCore true rest).1,
            String.mk (parseCore true rest).2.1,
            String.mk (parseCore true rest).2.2.1,
            String.mk (parseCore true rest).2.2.2⟩ := by
        simp [posixParse]
      by_cases hrest : rest = []
      · exfalso
        apply hext
        rw [hpp]
        subst hrest
        rfl
      · have hlast_u : rest.getLast? ≠ some '/' := by
          obtain ⟨r, rs, hrr⟩ := List.exists_cons_of_ne_nil hrest
          rw [hrr]
          rw [hrr, ← List.getLast?_cons_cons (a := '/')] at hlast
          exact hlast
        have hext_u : (parseCore true rest).2.2.1 ≠ [] := by
          intro hc
          apply hext
          rw [hpp]
          show String.mk (parseCore true rest).2.2.1 = ""
          rw [hc]
        obtain ⟨ha, hb⟩ := parseCore_rebuild true rest hlast_u hext_u
        simp only [if_pos rfl] at ha hb
        set D := (parseCore true rest).1 with hD
        set EX := (parseCore true rest).2.2.1 with hEX
        set NM := (parseCore true rest).2.2.2 with hNM
        constructor
        · intro hin
          have hrec : ('/' :: rest : List Char) = (D ++ '/' :: NM) ++ EX :=
            ha (by simpa using hin)
          rw [hpp]
          apply String.ext
          show (D ++ ['/']) ++ NM =
            List.take (('/' :: rest).length - EX.length) ('/' :: rest)
          rw [hrec, take_append_sub]
          simp
        · intro hnin
          obtain ⟨hdir, hrec⟩ := hb (by simpa using hnin)
          rw [hpp]
          apply String.ext
          show (D ++ ['/']) ++ NM =
            '/' :: List.take (('/' :: rest).length - EX.length) ('/' :: rest)
          have hX : ('/' :: rest : List Char) = (['/'] ++ NM) ++ EX := by
            rw [hrec]
            simp
          rw [hX, take_append_sub, hdir]
          simp
    · have hbeq : (c0 == '/') = false := by simp [habs]
      have hpp : posixParse (String.mk (c0 :: rest)) =
          ⟨"", String.mk (parseCore false (c0 :: rest)).1,
            String.mk (parseCore false (c0 :: rest)).2.1,
            String.mk (parseCore false (c0 :: rest)).2.2.1,
            String.mk (parseCore false (c0 :: rest)).2.2.2⟩ := by
        simp [posixParse, hbeq]
      have hext_u : (parseCore false (c0 :: rest)).2.2.1 ≠ [] := by
        intro hc
        apply hext
        rw [hpp]
        show String.mk (parseCore false (c0 :: rest)).2.2.1 = ""
        rw [hc]
      obtain ⟨ha, hb⟩ := parseCore_rebuild false (c0 :: rest) hlast hext_u
      simp only [Bool.false_eq_true, if_false, List.nil_append] at ha hb
      set D := (parseCore false (c0 :: rest)).1 with hD
      set EX := (parseCore false (c0 :: rest)).2.2.1 with hEX
      set NM := (parseCore false (c0 :: rest)).2.2.2 with hNM
      constructor
      · intro hin
        have hrec : (c0 :: rest : List Char) = (D ++ '/' :: NM) ++ EX :=
          ha (List.mem_cons_of_mem _ (by simpa using hin))
        rw [hpp]
        apply String.ext
        show (D ++ ['/']) ++ NM =
          List.take ((c0 :: rest).length - EX.length) (c0 :: rest)
        rw [hrec, take_append_sub]
        simp
      · intro hnin
        have hnr : ('/' : Char) ∉ rest := by simpa using hnin
        obtain ⟨hdir, hrec⟩ := hb (fun hc => by
          rcases List.mem_cons.mp hc with h | h
          · exact habs h.symm
          · exact hnr h)
        rw [hpp]
        apply String.ext
        show (D ++ ['/']) ++ NM =
          '/' :: List.take ((c0 :: rest).length - EX.length) (c0 :: rest)
        rw [hrec, take_append_sub, hdir]
        simp
/-- Counterexample to C2 as stated: for the entry point `index.ts` (no
directory component) the code produces `/index.mjs` — a leading separator
appears — whereas replacing the extension while preserving the (empty)
directory would give `index.mjs`. -/
theorem module_flat_entry_counterexample :
    pjModule [("main", JVal.jstr "index.ts")] = "/index.mjs" ∧
    strDropRight "index.ts" (posixParse "index.ts").ext.length ++ ".mjs" =
      "index.mjs" ∧
    ("/index.mjs" : String) ≠ "index.mjs" := by
  refine ⟨by decide, by decide, by decide⟩

/-- C2 as amended: for every manifest whose entry point `P` has an
extension and no trailing separator, the derived `module`, `main` and
`types` equal `P` with the extension replaced by `.mjs`, `.cjs`, `.d.ts`
(directory preserved) whenever `P` contains a separator beyond its first
character; otherwise (a bare filename, or an absolute path with a single
component) a leading `/` is prepended to the replaced form. -/
theorem output_names_replace_extension (j : JObj)
    (hext : (posixParse (pjEntryPoint j)).ext ≠ "")
    (hlast : (pjEntryPoint j).data.getLast? ≠ some '/') :
    ('/' ∈ (pjEntryPoint j).data.drop 1 →
      pjModule j = strDropRight (pjEntryPoint j)
          (posixParse (pjEntryPoint j)).ext.length ++ ".mjs" ∧
      pjMainOut j = strDropRight (pjEntryPoint j)
          (posixParse (pjEntryPoint j)).ext.length ++ ".cjs" ∧
      pjTypes j = strDropRight (pjEntryPoint j)
          (posixParse (pjEntryPoint j)).ext.length ++ ".d.ts") ∧
    ('/' ∉ (pjEntryPoint j).data.drop 1 →
      pjModule j = "/" ++ strDropRight (pjEntryPoint j)
          (posixParse (pjEntryPoint j)).ext.length ++ ".mjs" ∧
      pjMainOut j = "/" ++ strDropRight (pjEntryPoint j)
          (posixParse (pjEntryPoint j)).ext.length ++ ".cjs" ∧
      pjTypes j = "/" ++ strDropRight (pjEntryPoint j)
          (posixParse (pjEntryPoint j)).ext.length ++ ".d.ts") := by
  have hrebuild := posixParse_rebuild (pjEntryPoint j).data
    (by simpa using hlast) (by simpa using hext)
  obtain ⟨h1, h2⟩ := hrebuild
  constructor
  · intro hin
    have h := h1 (by simpa using hin)
    refine ⟨?_, ?_, ?_⟩ <;>
      · simp only [pjModule, pjMainOut, pjTypes]
        rw [show (posixParse (pjEntryPoint j)).dir ++ "/" ++
            (posixParse (pjEntryPoint j)).name =
            strDropRight (pjEntryPoint j)
              (posixParse (pjEntryPoint j)).ext.length from by simpa using h]
  · intro hnin
    have h := h2 (by simpa using hnin)
    refine ⟨?_, ?_, ?_⟩ <;>
      · simp only [pjModule, pjMainOut, pjTypes]
        rw [show (posixParse (pjEntryPoint j)).dir ++ "/" ++
            (posixParse (pjEntryPoint j)).name =
            "/" ++ strDropRight (pjEntryPoint j)
              (posixParse (pjEntryPoint j)).ext.length from by simpa using h]

/-- Witness for C2 (amended): the entry point `src/app.ts` yields
`src/app.mjs`, i.e. the extension-replaced form. -/
theorem output_names_replace_extension_witness :
    pjModule [("main", JVal.jstr "src/app.ts")] =
      strDropRight (pjEntryPoint [("main", JVal.jstr "src/app.ts")])
        (posixParse (pjEntryPoint [("main", JVal.jstr "src/app.ts")])).ext.length
        ++ ".mjs" :=
  ((output_names_replace_extension [("main", JVal.jstr "src/app.ts")]
    (by decide) (by decide)).1 (by decide)).1

/-! ## Fidelity checks

Concrete evaluations of the model against the behaviour of Node's
`path.parse` and the doc-comment examples of `src/package-json.ts`. -/

example : (posixParse "src/app.ts").dir = "src" := by decide
example : (posixParse "src/app.ts").name = "app" := by decide
example : (posixParse "src/app.ts").ext = ".ts" := by decide
example : (posixParse "./src/app/index.tsx").dir = "./src/app" := by decide
example : (posixParse ".env").ext = "" := by decide
example : (posixParse "..").name = ".." := by decide
example : (posixParse "a/b//").base = "b" := by decide
example : (posixParse "foo.").ext = "." := by decide
example : pjModule [("main", JVal.jstr "src/app.ts")] = "src/app.mjs" := by
  decide
example : pjMainOut [("main", JVal.jstr "src/app.ts")] = "src/app.cjs" := by
  decide
example : pjTypes [("main", JVal.jstr "src/app.ts")] = "src/app.d.ts" := by
  decide
example : pjEntryPoint [] = "src/index.ts" := by decide
example : pjVersion [] = "0.0.0" := by decide
example :
    pjDependencies
      [("dependencies", JVal.jobj
        [("eslint", JVal.jstr "8.0.0"), ("typescript", JVal.jstr "4.4.3")])]
      ["eslint"] strLeB = [("eslint", "8.0.0")] := by decide
example :
    pjExternalDependencies
      [("dependencies", JVal.jobj
        [("eslint", JVal.jstr "8.0.0"), ("typescript", JVal.jstr "4.4.3")]),
       ("peerDependencies", JVal.jobj
        [("react", JVal.jstr "17.0.2"), ("react-dom", JVal.jstr "17.0.2")]),
       ("devDependencies", JVal.jobj [("jest", JVal.jstr "27.2.0")])]
      ["eslint"] strLeB = ["eslint", "jest", "react", "react-dom"] := by decide

end StdBuild
